import Mathlib

/-!
Shallow embedding of the szxp/mux HTTP request router (mux.go) and proofs
about its route registry, priority ordering, matching and dispatch logic.

Go strings are modelled as lists of characters, Go handlers by identifiers
(an `Option Nat`, with `none` standing for a nil handler).  Functions keep
the names of the source functions where Lean allows it.
-/

namespace MuxModel

/-- Go strings.Split(s, "/"); the result always has at least one element. -/
def splitSlash : List Char → List (List Char)
  | [] => [[]]
  | c :: rest =>
    if c = '/' then [] :: splitSlash rest
    else
      match splitSlash rest with
      | [] => [[c]]
      | s :: ss => (c :: s) :: ss

/-- Go strings.Trim(s, "/"): drop leading and trailing slash characters. -/
def trimSlashes (p : List Char) : List Char :=
  ((p.dropWhile (fun c => c = '/')).reverse.dropWhile (fun c => c = '/')).reverse

/-- Join segments with a slash separator; inverse of `splitSlash` on
slash-free segments. -/
def joinSlash : List (List Char) → List Char
  | [] => []
  | [s] => s
  | s :: rest => s ++ '/' :: joinSlash rest

/-- The route record from mux.go: the exploded pattern, the supported
method, the parameter positions and the two handler slots.  The source
also caches the segment count in a field `len`, set once at construction;
here it is the derived function `Route.len`. -/
structure Route where
  segments : List (List Char)
  method : List Char
  params : List (Nat × List Char)
  slashHandler : Option Nat
  nonSlashHandler : Option Nat
deriving Repr, DecidableEq, Inhabited

/-- Cached segment count of a route (field `len` in the source). -/
def Route.len (r : Route) : Nat := r.segments.length

/-- route.methodSupported: an empty method string accepts every method. -/
def Route.methodSupported (r : Route) (method : List Char) : Bool :=
  r.method == [] || r.method == method

/-- A segment is dynamic exactly when its first byte is a colon
(`len(s) > 0 && s[0] == ':'` in the source). -/
def isParamSeg : List Char → Bool
  | [] => false
  | c :: _ => c == ':'

/-- route.notMatch: the segment of the route at index `i` exists, is
static, and differs from the request segment.  The source compares
`p.len-1 < i` over Go ints, hence the cast. -/
def Route.notMatch (r : Route) (pathSeg : List Char) (i : Nat) : Bool :=
  if (r.len : Int) - 1 < (i : Int) then false
  else
    let s := r.segments.getD i []
    (!isParamSeg s) && (s != pathSeg)

/-- Go map assignment `m[k] = v` on an association list. -/
def argsInsert : List (List Char × List Char) → List Char → List Char →
    List (List Char × List Char)
  | [], k, v => [(k, v)]
  | (k1, v1) :: rest, k, v =>
    if k1 = k then (k, v) :: rest else (k1, v1) :: argsInsert rest k v

/-- One step of the fold in `argsMap`: bind the parameter at position
`p.1` when that position is within the request segment count. -/
def bindStep (pathSegs : List (List Char)) (m : List (List Char × List Char))
    (p : Nat × List Char) : List (List Char × List Char) :=
  if p.1 < pathSegs.length then argsInsert m p.2 (pathSegs.getD p.1 []) else m

/-- route.argsMap: parameter name to request segment value for in-range
positions.  The source iterates a Go map in unspecified order; `params` is
stored here as a list in segment-index order and folded left to right,
which produces the same map whenever parameter names are distinct. -/
def Route.argsMap (r : Route) (pathSegs : List (List Char)) :
    List (List Char × List Char) :=
  r.params.foldl (bindStep pathSegs) []

/-- Priority byte of one segment inside the loop of route.priority:
a colon-led segment weighs one, any other non-empty segment weighs two,
and `none` models the Go panic of indexing the first byte of an empty
segment. -/
def segPriority : List Char → Option Char
  | [] => none
  | c :: _ => some (if c = ':' then '1' else '2')

/-- route.priority, partially: `none` models the Go panic that fires when a
segment other than a leading empty one is empty (`s[0]` on an empty
string), or when `segments` is empty (index out of range; unreachable for
constructed routes). -/
def Route.priority (r : Route) : Option (List Char) :=
  match r.segments with
  | [] => none
  | s0 :: _ =>
    if s0 = [] then some ['0']
    else r.segments.mapM segPriority

/-- Total extension of `Route.priority` used by the sorting model; an
empty segment is weighted like a static one.  It agrees with
`Route.priority` wherever the latter is defined. -/
def Route.priorityT (r : Route) : List Char :=
  match r.segments with
  | [] => ['0']
  | s0 :: _ =>
    if s0 = [] then ['0']
    else r.segments.map (fun s => if isParamSeg s then '1' else '2')

/-- Go byte-wise string comparison `a < b` on character lists. -/
def strLtB : List Char → List Char → Bool
  | [], [] => false
  | [], _ :: _ => true
  | _ :: _, [] => false
  | a :: as, b :: bs =>
    if a.toNat < b.toNat then true
    else if a = b then strLtB as bs
    else false

/-- byPriority.Less: route `a` comes before route `b` when the priority of
`a` is strictly greater than the priority of `b`. -/
def byPriorityLess (a b : Route) : Bool :=
  strLtB b.priorityT a.priorityT

/-- Insert an element into a list that is ordered by `le`. -/
def insLe (le : α → α → Bool) (a : α) : List α → List α
  | [] => [a]
  | b :: bs => if le a b then a :: b :: bs else b :: insLe le a bs

/-- Insertion sort.  sort.Sort in the source only guarantees that the
result is ordered with respect to Less; this realises that contract with
a concrete sorting algorithm (no theorem below depends on how the sort
orders routes of equal priority). -/
def sortLe (le : α → α → Bool) : List α → List α
  | [] => []
  | a :: as => insLe le a (sortLe le as)

/-- newRoute: explode the (already trimmed) path on slashes and record the
parameter names by segment index. -/
def newRoute (method path : List Char) : Route :=
  let segs := splitSlash path
  { segments := segs
    method := method
    params := segs.enum.filterMap (fun p =>
      match p.2 with
      | ':' :: name => some (p.1, name)
      | _ => none)
    slashHandler := none
    nonSlashHandler := none }

/-- The muxer state.  In Go the `registered` map and the `routes` slice
share `*route` pointers; the sharing is realised here with an arena
`store` (a route id is an index into `store`), `registered` mapping
registration keys to ids, and `routes` holding the ids of the sorted
route list. -/
structure Muxer where
  store : List Route
  registered : List (List Char × Nat)
  routes : List Nat
deriving Repr, DecidableEq, Inhabited

/-- NewMuxer returns an empty muxer. -/
def NewMuxer : Muxer := ⟨[], [], []⟩

/-- Write the handler into the slot selected by the trailing slash of the
registered pattern. -/
def updateSlot (r : Route) (endsInSlash : Bool) (handler : Option Nat) : Route :=
  if endsInSlash then { r with slashHandler := handler }
  else { r with nonSlashHandler := handler }

/-- split: separate host and path at the first slash; `none` models the
"path must begin with slash" panic raised when the pattern contains no
slash at all.  The host part is lowercased. -/
def splitHostPath (pattern : List Char) : Option (List Char × List Char) :=
  let host := pattern.takeWhile (fun c => c != '/')
  let path := pattern.dropWhile (fun c => c != '/')
  if path = [] then none
  else some (host.map Char.toLower, path)

/-- One iteration of the method loop inside Handle: look the key up, create
and append a fresh route on a miss, then set the addressed handler slot of
the stored route. -/
def handleOne (m : Muxer) (method host path : List Char) (endsInSlash : Bool)
    (handler : Option Nat) : Muxer :=
  let key := method ++ host ++ path
  match m.registered.lookup key with
  | some id =>
    { m with store := m.store.set id (updateSlot (m.store.getD id default) endsInSlash handler) }
  | none =>
    let id := m.store.length
    { store := m.store ++ [updateSlot (newRoute method path) endsInSlash handler]
      registered := m.registered ++ [(key, id)]
      routes := m.routes ++ [id] }

/-- Comparator on route ids through the store: id `i` may precede id `j`
when Less does not order the route of `j` strictly before the route of
`i`. -/
def idLe (store : List Route) (i j : Nat) : Bool :=
  !byPriorityLess (store.getD j default) (store.getD i default)

/-- Muxer.Handle.  The two `.error` results model the two registration
panics of the source (empty pattern, and a pattern without a slash). -/
def Muxer.Handle (m : Muxer) (pattern : List Char) (handler : Option Nat)
    (methods : List (List Char)) : Except (List Char) Muxer :=
  if pattern = [] then .error ("invalid pattern ".toList ++ pattern)
  else
    match splitHostPath pattern with
    | none => .error "path must begin with slash".toList
    | some (host, path) =>
      let endsInSlash := path.getLast? == some '/'
      let path1 := trimSlashes path
      let methods1 := if methods = [] then [[]] else methods
      let m1 := methods1.foldl
        (fun mm method => handleOne mm method host path1 endsInSlash handler) m
      .ok { m1 with routes := sortLe (idLe m1.store) m1.routes }

/-- Unwrap a successful registration; used only at concrete valid
patterns, where Handle never errors. -/
def handleD (m : Muxer) (pattern : List Char) (handler : Option Nat)
    (methods : List (List Char)) : Muxer :=
  match m.Handle pattern handler methods with
  | .ok m1 => m1
  | .error _ => m

/-- The candidate filter of Muxer.possibleRoutes: same length with the
slot for the trailing-slash state populated, or strictly shorter with a
populated slash handler. -/
def possiblePred (slen : Nat) (endsInSlash : Bool) (r : Route) : Bool :=
  (r.len == slen && ((endsInSlash && r.slashHandler.isSome)
      || (!endsInSlash && r.nonSlashHandler.isSome)))
  || (decide (r.len < slen) && r.slashHandler.isSome)

/-- Muxer.possibleRoutes.  The source appends matching routes to a fresh
slice while walking the sorted list; that is the filter of the list. -/
def possibleRoutes (routes : List Route) (slen : Nat) (endsInSlash : Bool) :
    List Route :=
  routes.filter (possiblePred slen endsInSlash)

/-- Body of the elimination loop at request segment index `i`: nil out
every candidate whose own segment at `i` is static and differs from the
request segment. -/
def elimAt (segs : List (List Char)) (i : Nat) (cands : List (Option Route)) :
    List (Option Route) :=
  cands.map (fun c =>
    match c with
    | none => none
    | some r => if r.notMatch (segs.getD i []) i then none else some r)

/-- The elimination loop of Muxer.match: `for i := slen - 1; i >= 0; i--`,
breaking early when `candLen` reaches zero.  In the source `candLen`
starts as the number of candidates, all non-nil, and is decremented
exactly when an entry is set to nil, so it always equals the number of
non-nil entries. -/
def elimLoop (segs : List (List Char)) : Nat → List (Option Route) → List (Option Route)
  | 0, cands => cands
  | i + 1, cands =>
    let next := elimAt segs i cands
    if next.countP (fun c => c.isSome) = 0 then next
    else elimLoop segs i next

/-- Muxer.match over a plain route list (the receiver only contributes the
sorted route list; the host argument of the source is the blank
identifier and is ignored).  Returns the handler, the bound arguments and
the methodMismatch flag. -/
def matchRoutes (routes : List Route) (method path : List Char) :
    Option Nat × List (List Char × List Char) × Bool :=
  let endsInSlash := path.getLast? == some '/'
  let segments := splitSlash (trimSlashes path)
  let slen := segments.length
  let cands := elimLoop segments slen ((possibleRoutes routes slen endsInSlash).map some)
  if 0 < cands.countP (fun c => c.isSome) then
    match cands.findSome? (fun c =>
        match c with
        | some r => if r.methodSupported method then some r else none
        | none => none) with
    | some c =>
      (if decide (c.len < slen) || endsInSlash then c.slashHandler else c.nonSlashHandler,
       c.argsMap segments, false)
    | none => (none, [], true)
  else (none, [], false)

/-- The route list of a muxer in priority order. -/
def Muxer.routeList (m : Muxer) : List Route :=
  m.routes.map (fun i => m.store.getD i default)

/-- Muxer.match on the muxer state. -/
def Muxer.matchReq (m : Muxer) (method path : List Char) :
    Option Nat × List (List Char × List Char) × Bool :=
  matchRoutes m.routeList method path

/-- One step of the element walk of lexical path cleaning. -/
def cleanStep (rooted : Bool) (st : List (List Char)) (e : List Char) :
    List (List Char) :=
  if e = [] ∨ e = ['.'] then st
  else if e = ['.', '.'] then
    match st with
    | [] => if rooted then [] else [['.', '.']]
    | top :: rest => if top = ['.', '.'] then e :: st else rest
  else e :: st

/-- Models path.Clean of the Go standard library (an external dependency
of mux.go) by its documented lexical rules: drop empty and dot elements,
resolve a dot-dot element against the preceding element, keep leading
dot-dot elements only in relative paths, and return a single dot for an
empty result. -/
def pathClean (p : List Char) : List Char :=
  if p = [] then ['.']
  else
    let rooted := p.head? == some '/'
    let st := (splitSlash p).foldl (cleanStep rooted) []
    let out := (if rooted then ['/'] else []) ++ joinSlash st.reverse
    if out = [] then ['.'] else out

/-- cleanPath from mux.go: ensure a leading slash, clean, and restore a
trailing slash when the input had one and the result is not the root. -/
def cleanPath (p : List Char) : List Char :=
  if p = [] then ['/']
  else
    let p1 := if p.head? == some '/' then p else '/' :: p
    let np := pathClean p1
    if p1.getLast? == some '/' && np != ['/'] then np ++ ['/'] else np

/-- The observable outcome of ServeHTTP with no custom not-found handler
installed (the branch for a request target of a bare asterisk is outside
the claims and omitted). -/
inductive Outcome where
  | redirect (location : List Char) (status : Nat)
  | handled (handler : Nat) (ctx : List (List Char × List Char))
  | errorResp (status : Nat)
deriving Repr, DecidableEq

/-- ServeHTTP for a request with the given method and URL path: redirect
non-canonical paths (except for CONNECT), otherwise match and either
dispatch the handler with the bound parameters attached to the request
context, or reply 405 on a method mismatch and 404 otherwise. -/
def serveHTTP (routes : List Route) (method path : List Char) : Outcome :=
  if method != "CONNECT".toList && cleanPath path != path then
    .redirect (cleanPath path) 301
  else
    match matchRoutes routes method path with
    | (some h, args, _) => .handled h args
    | (none, _, mm) => .errorResp (if mm then 405 else 404)

/-- Specification-side candidate set, written from the words of the spec:
routes of exactly the request length with the slot for the trailing-slash
state populated, plus strictly shorter routes with a populated slash
handler. -/
def specCandidates (routes : List Route) (slen : Nat) (endsInSlash : Bool) :
    List Route :=
  routes.filter (fun r =>
    (r.segments.length == slen &&
      (if endsInSlash then r.slashHandler.isSome else r.nonSlashHandler.isSome))
    || (decide (r.segments.length < slen) && r.slashHandler.isSome))

/-- Specification-side survival predicate, written from the words of the
spec: every own segment is a parameter segment or equals the request
segment at the same index; indices at or beyond the own length are
exempt. -/
def specSurvives (reqSegs : List (List Char)) (r : Route) : Bool :=
  (List.range r.len).all (fun i =>
    isParamSeg (r.segments.getD i []) || r.segments.getD i [] == reqSegs.getD i [])

/-- Specification-side match, written from the words of the spec: filter
the candidates by `specSurvives`, select the first survivor accepting the
method, choose the slash slot for shorter routes and trailing-slash
requests; report a method mismatch when survivors exist but none was
selected. -/
def specMatch (routes : List Route) (method path : List Char) :
    Option Nat × List (List Char × List Char) × Bool :=
  let endsInSlash := path.getLast? == some '/'
  let segments := splitSlash (trimSlashes path)
  let slen := segments.length
  let cands := specCandidates routes slen endsInSlash
  match cands.find? (fun r => specSurvives segments r && r.methodSupported method) with
  | some c =>
    (if decide (c.len < slen) || endsInSlash then c.slashHandler else c.nonSlashHandler,
     c.argsMap segments, false)
  | none => (none, [], cands.any (specSurvives segments))

/-- Spec-side: some candidate survives elimination. -/
def hasSurvivor (routes : List Route) (path : List Char) : Bool :=
  (specCandidates routes (splitSlash (trimSlashes path)).length
    (path.getLast? == some '/')).any (specSurvives (splitSlash (trimSlashes path)))

/-- Spec-side: some surviving candidate accepts the request method. -/
def hasAcceptingSurvivor (routes : List Route) (method path : List Char) : Bool :=
  (specCandidates routes (splitSlash (trimSlashes path)).length
    (path.getLast? == some '/')).any
    (fun r => specSurvives (splitSlash (trimSlashes path)) r
      && r.methodSupported method)

/-- Demo registry: only /category/first (no trailing slash) registered. -/
def mCategory : Muxer := handleD NewMuxer "/category/first".toList (some 1) []

/-- Demo registry: /users/:username registered for any method. -/
def mUsers : Muxer := handleD NewMuxer "/users/:username".toList (some 7) []

/-- Demo registry: /a/:x (handler 1) and the prefix catch-all /a/
(handler 2). -/
def mPair : Muxer :=
  handleD (handleD NewMuxer "/a/:x".toList (some 1) []) "/a/".toList (some 2) []

/-- mPair with the /a/:x slot cleared by registering a nil handler. -/
def mPairCleared : Muxer := handleD mPair "/a/:x".toList none []

/-- mPair with /a/:x re-registered to handler 3. -/
def mPairRereg : Muxer := handleD mPair "/a/:x".toList (some 3) []

/-- Demo registry with two distinct same-shape paths /a/b and /a/c. -/
def mPrio : Muxer :=
  handleD (handleD NewMuxer "/a/b".toList (some 1) []) "/a/c".toList (some 2) []

/-! ## The elimination loop computes the specification predicate -/

/-- The elimination loop without the early break. -/
def elimLoopNS (segs : List (List Char)) : Nat → List (Option Route) → List (Option Route)
  | 0, cands => cands
  | i + 1, cands => elimLoopNS segs i (elimAt segs i cands)

/-- Survival of the checks at request indices below `n`. -/
def survivesUpTo (segs : List (List Char)) (n : Nat) (r : Route) : Bool :=
  (List.range n).all (fun i => !r.notMatch (segs.getD i []) i)

theorem elimAt_of_all_none (segs : List (List Char)) (i : Nat)
    {cands : List (Option Route)} (h : ∀ c ∈ cands, c = none) :
    elimAt segs i cands = cands := by
  induction cands with
  | nil => rfl
  | cons c cs ih =>
    have hc : c = none := h c (by simp)
    subst hc
    simpa [elimAt] using ih (fun c hc => h c (by simp [hc]))

theorem elimLoopNS_of_all_none (segs : List (List Char)) :
    ∀ (n : Nat) {cands : List (Option Route)}, (∀ c ∈ cands, c = none) →
      elimLoopNS segs n cands = cands
  | 0, _, _ => rfl
  | n + 1, cands, h => by
    rw [elimLoopNS, elimAt_of_all_none segs n h, elimLoopNS_of_all_none segs n h]

theorem elimLoop_eq_elimLoopNS (segs : List (List Char)) :
    ∀ (n : Nat) (cands : List (Option Route)),
      elimLoop segs n cands = elimLoopNS segs n cands
  | 0, _ => rfl
  | n + 1, cands => by
    rw [elimLoop, elimLoopNS]
    by_cases h : (elimAt segs n cands).countP (fun c => c.isSome) = 0
    · have hall : ∀ c ∈ elimAt segs n cands, c = none := by
        intro c hc
        have := (List.countP_eq_zero.mp h) c hc
        simpa [Option.isSome_iff_ne_none] using this
      rw [if_pos h, elimLoopNS_of_all_none segs n hall]
    · rw [if_neg h, elimLoop_eq_elimLoopNS segs n _]

theorem elimLoopNS_eq_map (segs : List (List Char)) :
    ∀ (n : Nat) (cands : List (Option Route)),
      elimLoopNS segs n cands =
        cands.map (fun c => c.bind
          (fun r => if survivesUpTo segs n r then some r else none))
  | 0, cands => by
    have : (fun c : Option Route => c.bind
        (fun r => if survivesUpTo segs 0 r then some r else none)) = id := by
      funext c
      cases c <;> simp [survivesUpTo]
    rw [elimLoopNS, this, List.map_id]
  | n + 1, cands => by
    rw [elimLoopNS, elimLoopNS_eq_map segs n _]
    unfold elimAt
    rw [List.map_map]
    refine List.map_congr_left (fun c _ => ?_)
    cases c with
    | none => rfl
    | some r =>
      show ((if r.notMatch (segs.getD n []) n = true then none else some r).bind
          (fun r => if survivesUpTo segs n r = true then some r else none))
        = (if survivesUpTo segs (n + 1) r = true then some r else none)
      cases h : r.notMatch (segs.getD n []) n with
      | true =>
        have hsurv : survivesUpTo segs (n + 1) r = false := by
          unfold survivesUpTo
          rw [List.range_succ]
          simp only [List.all_append, List.all_cons, List.all_nil]
          rw [h]
          simp only [Bool.not_true, Bool.false_and, Bool.and_false]
        rw [if_pos rfl, hsurv]
        rfl
      | false =>
        have hsurv : survivesUpTo segs (n + 1) r = survivesUpTo segs n r := by
          unfold survivesUpTo
          rw [List.range_succ]
          simp only [List.all_append, List.all_cons, List.all_nil]
          rw [h]
          simp only [Bool.not_false, Bool.true_and, Bool.and_true]
        rw [if_neg (by simp), hsurv]
        rfl

theorem notMatch_of_lt (r : Route) (s : List Char) (i : Nat) (h : i < r.len) :
    r.notMatch s i
      = (!isParamSeg (r.segments.getD i []) && (r.segments.getD i [] != s)) := by
  unfold Route.notMatch
  rw [if_neg]
  have : (i : Int) < (r.len : Int) := by exact_mod_cast h
  omega

theorem notMatch_of_ge (r : Route) (s : List Char) (i : Nat) (h : r.len ≤ i) :
    r.notMatch s i = false := by
  unfold Route.notMatch
  rw [if_pos]
  have : (r.len : Int) ≤ (i : Int) := by exact_mod_cast h
  omega

theorem elem_check_eq (r : Route) (segs : List (List Char)) (i : Nat)
    (h : i < r.len) :
    (!r.notMatch (segs.getD i []) i)
      = (isParamSeg (r.segments.getD i []) || r.segments.getD i [] == segs.getD i []) := by
  rw [notMatch_of_lt r _ i h]
  have hb : (r.segments.getD i [] != segs.getD i [])
      = !(r.segments.getD i [] == segs.getD i []) := rfl
  rw [hb]
  cases isParamSeg (r.segments.getD i []) <;>
    cases r.segments.getD i [] == segs.getD i [] <;> rfl

theorem survivesUpTo_eq_specSurvives (segs : List (List Char)) (r : Route)
    (n : Nat) (hle : r.len ≤ n) :
    survivesUpTo segs n r = specSurvives segs r := by
  unfold survivesUpTo specSurvives
  rw [Bool.eq_iff_iff, List.all_eq_true, List.all_eq_true]
  constructor
  · intro h i hi
    have hilt : i < r.len := List.mem_range.mp hi
    have h2 : (!r.notMatch (segs.getD i []) i) = true :=
      h i (List.mem_range.mpr (lt_of_lt_of_le hilt hle))
    show (isParamSeg (r.segments.getD i []) || r.segments.getD i [] == segs.getD i [])
      = true
    rw [← elem_check_eq r segs i hilt]
    exact h2
  · intro h i hi
    show (!r.notMatch (segs.getD i []) i) = true
    by_cases hc : i < r.len
    · rw [elem_check_eq r segs i hc]
      exact h i (List.mem_range.mpr hc)
    · rw [notMatch_of_ge r _ i (by omega)]
      rfl

theorem mem_possibleRoutes_len_le {routes : List Route} {slen : Nat}
    {e : Bool} {r : Route} (h : r ∈ possibleRoutes routes slen e) :
    r.len ≤ slen := by
  have hp := (List.mem_filter.mp h).2
  unfold possiblePred at hp
  rcases (Bool.or_eq_true _ _).mp hp with h1 | h2
  · have := ((Bool.and_eq_true _ _).mp h1).1
    exact Nat.le_of_eq (beq_iff_eq.mp this)
  · have := ((Bool.and_eq_true _ _).mp h2).1
    exact Nat.le_of_lt (of_decide_eq_true this)

theorem possibleRoutes_eq_specCandidates (routes : List Route) (slen : Nat)
    (e : Bool) :
    possibleRoutes routes slen e = specCandidates routes slen e := by
  unfold possibleRoutes specCandidates
  refine List.filter_congr (fun r _ => ?_)
  unfold possiblePred Route.len
  cases e <;> simp

theorem findSome?_map_filter (surv sup : Route → Bool) :
    ∀ cl : List Route,
      ((cl.map (fun r => if surv r then some r else none)).findSome?
        (fun c => match c with
          | some r => if sup r then some r else none
          | none => none))
      = cl.find? (fun r => surv r && sup r)
  | [] => rfl
  | r :: rest => by
    rw [List.map_cons, List.findSome?_cons]
    by_cases hs : surv r
    · by_cases hp : sup r
      · simp [hs, hp, List.find?_cons]
      · simp [hs, hp, List.find?_cons, findSome?_map_filter surv sup rest]
    · simp [hs, List.find?_cons, findSome?_map_filter surv sup rest]

theorem countP_map_filter (surv : Route → Bool) (cl : List Route) :
    (cl.map (fun r => if surv r then some r else none)).countP (fun c => c.isSome)
      = cl.countP surv := by
  rw [List.countP_map]
  refine List.countP_congr (fun r _ => ?_)
  cases h : surv r <;> simp [Function.comp, h]

/-- Central refinement lemma: the imperative backward-elimination match of
the source computes exactly the specification-side match. -/
theorem matchRoutes_eq_spec (routes : List Route) (method path : List Char) :
    matchRoutes routes method path = specMatch routes method path := by
  simp only [matchRoutes, specMatch]
  rw [← possibleRoutes_eq_specCandidates]
  set e := path.getLast? == some '/' with he
  set segs := splitSlash (trimSlashes path) with hsegs
  set slen := segs.length with hslen
  set cands0 := possibleRoutes routes slen e with hcands0
  have hmap : elimLoop segs slen (cands0.map some)
      = cands0.map (fun r => if specSurvives segs r then some r else none) := by
    rw [elimLoop_eq_elimLoopNS, elimLoopNS_eq_map, List.map_map]
    refine List.map_congr_left (fun r hr => ?_)
    show (if survivesUpTo segs slen r = true then some r else none)
      = (if specSurvives segs r = true then some r else none)
    rw [survivesUpTo_eq_specSurvives segs r slen (mem_possibleRoutes_len_le hr)]
  rw [hmap, findSome?_map_filter (specSurvives segs) (fun r => r.methodSupported method),
    countP_map_filter]
  cases hf : cands0.find? (fun r => specSurvives segs r && r.methodSupported method) with
  | some c =>
    have hc : 0 < cands0.countP (specSurvives segs) := by
      refine List.countP_pos_iff.mpr ?_
      refine ⟨c, List.mem_of_find?_eq_some hf, ?_⟩
      have hpc := List.find?_some hf
      exact ((Bool.and_eq_true _ _).mp hpc).1
    rw [if_pos hc]
  | none =>
    cases hany : cands0.any (specSurvives segs) with
    | true =>
      have hc : 0 < cands0.countP (specSurvives segs) := by
        obtain ⟨a, ha, hsa⟩ := List.any_eq_true.mp hany
        exact List.countP_pos_iff.mpr ⟨a, ha, hsa⟩
      rw [if_pos hc]
    | false =>
      have hc : ¬ 0 < cands0.countP (specSurvives segs) := by
        intro hpos
        obtain ⟨a, ha, hsa⟩ := List.countP_pos_iff.mp hpos
        have h2 := List.any_eq_true.mpr ⟨a, ha, hsa⟩
        rw [hany] at h2
        exact Bool.false_ne_true h2
      rw [if_neg hc]

/-! ## The lexicographic priority order and the sorting model -/

theorem char_eq_of_toNat_eq {a b : Char} (h : a.toNat = b.toNat) : a = b := by
  have h2 := Char.ofNat_toNat a
  rw [h, Char.ofNat_toNat b] at h2
  exact h2.symm

theorem strLtB_asymm : ∀ a b : List Char, strLtB a b = true → strLtB b a = false
  | [], [], h => absurd h Bool.false_ne_true
  | [], _ :: _, _ => rfl
  | _ :: _, [], h => absurd h Bool.false_ne_true
  | a :: as, b :: bs, h => by
    rw [strLtB] at h ⊢
    by_cases h1 : a.toNat < b.toNat
    · have hne : ¬ b = a := fun hba => by rw [hba] at h1; exact lt_irrefl _ h1
      rw [if_neg (by omega), if_neg hne]
    · rw [if_neg h1] at h
      by_cases h2 : a = b
      · subst h2
        rw [if_pos rfl] at h
        rw [if_neg (lt_irrefl a.toNat), if_pos rfl]
        exact strLtB_asymm as bs h
      · rw [if_neg h2] at h
        exact absurd h Bool.false_ne_true

theorem strLtB_or : ∀ (a c : List Char), strLtB a c = true →
    ∀ b : List Char, strLtB a b = true ∨ strLtB b c = true
  | [], [], h, _ => absurd h Bool.false_ne_true
  | [], _ :: _, _, [] => Or.inr rfl
  | [], _ :: _, _, _ :: _ => Or.inl rfl
  | _ :: _, [], h, _ => absurd h Bool.false_ne_true
  | _ :: _, _ :: _, _, [] => Or.inr rfl
  | a :: as, c :: cs, h, b :: bs => by
    rw [strLtB] at h
    by_cases hac : a.toNat < c.toNat
    · by_cases hab : a.toNat < b.toNat
      · left; rw [strLtB, if_pos hab]
      · right; rw [strLtB, if_pos (by omega)]
    · rw [if_neg hac] at h
      by_cases hac2 : a = c
      · subst hac2
        rw [if_pos rfl] at h
        by_cases hab : a.toNat < b.toNat
        · left; rw [strLtB, if_pos hab]
        · by_cases hba : b.toNat < a.toNat
          · right; rw [strLtB, if_pos hba]
          · have hb : b = a := char_eq_of_toNat_eq (by omega)
            subst hb
            rcases strLtB_or as cs h bs with h1 | h1
            · left; rw [strLtB, if_neg (lt_irrefl _), if_pos rfl]; exact h1
            · right; rw [strLtB, if_neg (lt_irrefl _), if_pos rfl]; exact h1
      · rw [if_neg hac2] at h
        exact absurd h Bool.false_ne_true

theorem mem_insLe (le : α → α → Bool) (a x : α) :
    ∀ l : List α, x ∈ insLe le a l ↔ x = a ∨ x ∈ l
  | [] => by simp [insLe]
  | b :: bs => by
    rw [insLe]
    by_cases h : le a b = true
    · rw [if_pos h]
      simp only [List.mem_cons]
    · rw [if_neg h]
      simp only [List.mem_cons, mem_insLe le a x bs]
      tauto

theorem pairwise_insLe (le : α → α → Bool)
    (htot : ∀ x y, le x y = true ∨ le y x = true)
    (htr : ∀ x y z, le x y = true → le y z = true → le x z = true) (a : α) :
    ∀ l : List α, l.Pairwise (fun x y => le x y = true) →
      (insLe le a l).Pairwise (fun x y => le x y = true)
  | [], _ => by simp [insLe]
  | b :: bs, hp => by
    obtain ⟨hb, hbs⟩ := List.pairwise_cons.mp hp
    rw [insLe]
    by_cases h : le a b = true
    · rw [if_pos h]
      refine List.pairwise_cons.mpr ⟨?_, hp⟩
      intro x hx
      rcases List.mem_cons.mp hx with hx | hx
      · rw [hx]; exact h
      · exact htr a b x h (hb x hx)
    · rw [if_neg h]
      have hba : le b a = true := (htot a b).resolve_left h
      refine List.pairwise_cons.mpr ⟨?_, pairwise_insLe le htot htr a bs hbs⟩
      intro x hx
      rcases (mem_insLe le a x bs).mp hx with hx | hx
      · rw [hx]; exact hba
      · exact hb x hx

theorem pairwise_sortLe (le : α → α → Bool)
    (htot : ∀ x y, le x y = true ∨ le y x = true)
    (htr : ∀ x y z, le x y = true → le y z = true → le x z = true) :
    ∀ l : List α, (sortLe le l).Pairwise (fun x y => le x y = true)
  | [] => List.Pairwise.nil
  | a :: as => by
    rw [sortLe]
    exact pairwise_insLe le htot htr a _ (pairwise_sortLe le htot htr as)

theorem perm_insLe (le : α → α → Bool) (a : α) :
    ∀ l : List α, (insLe le a l).Perm (a :: l)
  | [] => List.Perm.refl _
  | b :: bs => by
    rw [insLe]
    by_cases h : le a b = true
    · rw [if_pos h]
    · rw [if_neg h]
      exact ((perm_insLe le a bs).cons b).trans (List.Perm.swap a b bs)

theorem perm_sortLe (le : α → α → Bool) :
    ∀ l : List α, (sortLe le l).Perm l
  | [] => List.Perm.refl _
  | a :: as => by
    rw [sortLe]
    exact (perm_insLe le a _).trans ((perm_sortLe le as).cons a)

theorem idLe_total (store : List Route) (i j : Nat) :
    idLe store i j = true ∨ idLe store j i = true := by
  unfold idLe byPriorityLess
  cases h : strLtB (store.getD i default).priorityT (store.getD j default).priorityT with
  | true =>
    right
    rw [strLtB_asymm _ _ h]
    rfl
  | false =>
    left
    rfl

theorem idLe_trans (store : List Route) (i j k : Nat)
    (h1 : idLe store i j = true) (h2 : idLe store j k = true) :
    idLe store i k = true := by
  unfold idLe byPriorityLess at h1 h2 ⊢
  rw [Bool.not_eq_true'] at h1 h2 ⊢
  by_contra hik
  rw [Bool.not_eq_false] at hik
  rcases strLtB_or _ _ hik (store.getD j default).priorityT with h | h
  · rw [h1] at h; exact Bool.false_ne_true h
  · rw [h2] at h; exact Bool.false_ne_true h

theorem mapM_priority_eq : ∀ (l : List (List Char)) (pl : List Char),
    l.mapM segPriority = some pl →
    l.map (fun s => if isParamSeg s then '1' else '2') = pl
  | [], pl, h => by simpa using (Option.some.inj h)
  | s :: ss, pl, h => by
    rw [List.mapM_cons] at h
    cases s with
    | nil => simp [segPriority] at h
    | cons c cr =>
      cases hrm : ss.mapM segPriority with
      | none => rw [hrm] at h; simp at h
      | some prest =>
        rw [hrm] at h
        simp only [segPriority, Option.bind_eq_bind, Option.some_bind,
          Option.pure_def] at h
        have hpl : pl = (if c = ':' then '1' else '2') :: prest := (Option.some.inj h).symm
        have hhead : (if isParamSeg (c :: cr) = true then '1' else '2')
            = (if c = ':' then '1' else '2') := by
          by_cases hc : c = ':'
          · subst hc
            rfl
          · rw [if_neg hc]
            have hip : isParamSeg (c :: cr) = false := by
              show (c == ':') = false
              exact beq_eq_false_iff_ne.mpr hc
            rw [hip]
            rfl
        rw [hpl, List.map_cons, mapM_priority_eq ss prest hrm, hhead]

/-- Agreement of the total priority with the partial source priority. -/
theorem priorityT_eq_of_priority {r : Route} {pl : List Char}
    (h : r.priority = some pl) : r.priorityT = pl := by
  cases hs : r.segments with
  | nil =>
    simp only [Route.priority, hs] at h
    exact Option.noConfusion h
  | cons s0 rest =>
    simp only [Route.priority, hs] at h
    simp only [Route.priorityT, hs]
    by_cases h0 : s0 = []
    · rw [if_pos h0] at h
      rw [if_pos h0]
      exact Option.some.inj h
    · rw [if_neg h0] at h
      rw [if_neg h0]
      exact mapM_priority_eq (s0 :: rest) pl h

/-- Destructuring a successful Handle: the resulting state is some
intermediate state with its route ids sorted by priority. -/
theorem handle_ok_shape {m : Muxer} {pattern : List Char} {handler : Option Nat}
    {methods : List (List Char)} {m2 : Muxer}
    (h : m.Handle pattern handler methods = .ok m2) :
    ∃ m1 : Muxer, m2 = { m1 with routes := sortLe (idLe m1.store) m1.routes } := by
  simp only [Muxer.Handle] at h
  split at h
  · exact absurd h (by simp)
  · split at h
    · exact absurd h (by simp)
    · exact ⟨_, (Except.ok.inj h).symm⟩

/-- The route list of any state produced by Handle is sorted by descending
priority: Less never orders a later route strictly before an earlier one. -/
theorem handle_routeList_sorted {m : Muxer} {pattern : List Char}
    {handler : Option Nat} {methods : List (List Char)} {m2 : Muxer}
    (h : m.Handle pattern handler methods = .ok m2) :
    m2.routeList.Pairwise (fun a b => byPriorityLess b a = false) := by
  obtain ⟨m1, hm⟩ := handle_ok_shape h
  subst hm
  unfold Muxer.routeList
  rw [List.pairwise_map]
  have hp := pairwise_sortLe (idLe m1.store) (idLe_total m1.store)
    (idLe_trans m1.store) m1.routes
  refine hp.imp ?_
  intro i j hij
  unfold idLe at hij
  exact (Bool.not_eq_true' _).mp hij

/-! ## Static segments outrank parameter segments -/

theorem strLtB_of_prefix_lt : ∀ (p : List Char) (x y : Char) (t1 t2 : List Char),
    x.toNat < y.toNat → strLtB (p ++ x :: t1) (p ++ y :: t2) = true
  | [], x, y, t1, t2, h => by
    rw [List.nil_append, List.nil_append, strLtB, if_pos h]
  | c :: p, x, y, t1, t2, h => by
    rw [List.cons_append, List.cons_append, strLtB, if_neg (lt_irrefl _), if_pos rfl]
    exact strLtB_of_prefix_lt p x y t1 t2 h

theorem priorityT_eq_map {r : Route} (hne : ∀ s ∈ r.segments, s ≠ [])
    (hlen : 0 < r.segments.length) :
    r.priorityT = r.segments.map (fun s => if isParamSeg s then '1' else '2') := by
  cases hs : r.segments with
  | nil => rw [hs] at hlen; simp at hlen
  | cons s0 rest =>
    have h0 : s0 ≠ [] := hne s0 (by rw [hs]; exact List.mem_cons_self _ _)
    simp only [Route.priorityT, hs]
    rw [if_neg h0]

/-- Core of the specificity ranking: between two routes of equal length
whose static/parameter shapes first differ at index `i`, with the first
route static there, Less ranks the first route strictly higher. -/
theorem byPriorityLess_of_static_param (r1 r2 : Route) (i : Nat)
    (hlen : r1.len = r2.len)
    (hne1 : ∀ s ∈ r1.segments, s ≠ []) (hne2 : ∀ s ∈ r2.segments, s ≠ [])
    (hi : i < r1.len)
    (hpre : ∀ j, j < i →
      isParamSeg (r1.segments.getD j []) = isParamSeg (r2.segments.getD j []))
    (hstat : isParamSeg (r1.segments.getD i []) = false)
    (hpar : isParamSeg (r2.segments.getD i []) = true) :
    byPriorityLess r1 r2 = true := by
  have hlen2 : r1.segments.length = r2.segments.length := hlen
  have hi1 : i < r1.segments.length := hi
  have hi2 : i < r2.segments.length := by omega
  have hp1 := priorityT_eq_map hne1 (by omega)
  have hp2 := priorityT_eq_map hne2 (by omega)
  have hm1 : i < (r1.segments.map (fun s => if isParamSeg s then '1' else '2')).length := by
    simpa using hi1
  have hm2 : i < (r2.segments.map (fun s => if isParamSeg s then '1' else '2')).length := by
    simpa using hi2
  have hgi1 : (r1.segments.map (fun s => if isParamSeg s then '1' else '2'))[i] = '2' := by
    rw [List.getElem_map]
    show (if isParamSeg (r1.segments[i]) = true then '1' else '2') = '2'
    rw [← List.getD_eq_getElem r1.segments [] hi1, hstat]
    rfl
  have hgi2 : (r2.segments.map (fun s => if isParamSeg s then '1' else '2'))[i] = '1' := by
    rw [List.getElem_map]
    show (if isParamSeg (r2.segments[i]) = true then '1' else '2') = '1'
    rw [← List.getD_eq_getElem r2.segments [] hi2, hpar]
    rfl
  have htake : (r1.segments.map (fun s => if isParamSeg s then '1' else '2')).take i
      = (r2.segments.map (fun s => if isParamSeg s then '1' else '2')).take i := by
    apply List.ext_getElem
    · rw [List.length_take, List.length_take, List.length_map, List.length_map, hlen2]
    · intro j hja hjb
      have hj : j < i := by
        rw [List.length_take] at hja
        omega
      have hj1 : j < r1.segments.length := by omega
      have hj2 : j < r2.segments.length := by omega
      rw [List.getElem_take _, List.getElem_take _, List.getElem_map, List.getElem_map]
      show (if isParamSeg (r1.segments[j]) = true then '1' else '2')
        = (if isParamSeg (r2.segments[j]) = true then '1' else '2')
      rw [← List.getD_eq_getElem r1.segments [] hj1,
        ← List.getD_eq_getElem r2.segments [] hj2, hpre j hj]
  have hd1 : r1.segments.map (fun s => if isParamSeg s then '1' else '2')
      = (r1.segments.map (fun s => if isParamSeg s then '1' else '2')).take i
        ++ '2' :: (r1.segments.map (fun s => if isParamSeg s then '1' else '2')).drop (i + 1) := by
    conv_lhs => rw [← List.take_append_drop i
      (r1.segments.map (fun s => if isParamSeg s then '1' else '2'))]
    rw [List.drop_eq_getElem_cons hm1, hgi1]
  have hd2 : r2.segments.map (fun s => if isParamSeg s then '1' else '2')
      = (r2.segments.map (fun s => if isParamSeg s then '1' else '2')).take i
        ++ '1' :: (r2.segments.map (fun s => if isParamSeg s then '1' else '2')).drop (i + 1) := by
    conv_lhs => rw [← List.take_append_drop i
      (r2.segments.map (fun s => if isParamSeg s then '1' else '2'))]
    rw [List.drop_eq_getElem_cons hm2, hgi2]
  unfold byPriorityLess
  rw [hp1, hp2, hd1, hd2, ← htake]
  exact strLtB_of_prefix_lt _ '1' '2' _ _ (by decide)

/-! ## Structure of canonical paths -/

theorem splitSlash_no_slash : ∀ (p : List Char), ∀ s ∈ splitSlash p, '/' ∉ s
  | [], s, hs => by
    simp only [splitSlash, List.mem_singleton] at hs
    subst hs
    simp
  | c :: rest, s, hs => by
    rw [splitSlash] at hs
    by_cases hc : c = '/'
    · rw [if_pos hc] at hs
      rcases List.mem_cons.mp hs with h | h
      · subst h; simp
      · exact splitSlash_no_slash rest s h
    · rw [if_neg hc] at hs
      cases hsp : splitSlash rest with
      | nil =>
        rw [hsp] at hs
        have hse : s = [c] := List.mem_singleton.mp hs
        subst hse
        intro hm
        exact hc (List.mem_singleton.mp hm).symm
      | cons t ts =>
        rw [hsp] at hs
        rcases List.mem_cons.mp hs with h | h
        · subst h
          intro hmem
          rcases List.mem_cons.mp hmem with h2 | h2
          · exact hc h2.symm
          · exact splitSlash_no_slash rest t
              (by rw [hsp]; exact List.mem_cons_self _ _) h2
        · exact splitSlash_no_slash rest s
            (by rw [hsp]; exact List.mem_cons_of_mem t h)

theorem splitSlash_ne_nil : ∀ p : List Char, splitSlash p ≠ []
  | [] => by simp [splitSlash]
  | c :: rest => by
    rw [splitSlash]
    by_cases hc : c = '/'
    · rw [if_pos hc]; simp
    · rw [if_neg hc]
      cases hsp : splitSlash rest <;> simp

theorem splitSlash_of_no_slash : ∀ (s : List Char), '/' ∉ s → splitSlash s = [s]
  | [], _ => rfl
  | c :: t, h => by
    have hc : ¬ c = '/' := fun hcc => h (hcc ▸ List.mem_cons_self _ _)
    rw [splitSlash, if_neg hc,
      splitSlash_of_no_slash t (fun hm => h (List.mem_cons_of_mem c hm))]

theorem splitSlash_append_slash : ∀ (s t : List Char), '/' ∉ s →
    splitSlash (s ++ '/' :: t) = s :: splitSlash t
  | [], t, _ => by rw [List.nil_append, splitSlash, if_pos rfl]
  | c :: s, t, h => by
    have hc : ¬ c = '/' := fun hcc => h (hcc ▸ List.mem_cons_self _ _)
    rw [List.cons_append, splitSlash, if_neg hc,
      splitSlash_append_slash s t (fun hm => h (List.mem_cons_of_mem c hm))]

theorem splitSlash_joinSlash : ∀ (segs : List (List Char)), segs ≠ [] →
    (∀ s ∈ segs, '/' ∉ s) → splitSlash (joinSlash segs) = segs
  | [], h, _ => absurd rfl h
  | [s], _, hns => by
    show splitSlash s = [s]
    exact splitSlash_of_no_slash s (hns s (by simp))
  | s :: r :: rest, _, hns => by
    show splitSlash (s ++ '/' :: joinSlash (r :: rest)) = s :: r :: rest
    rw [splitSlash_append_slash s _ (hns s (by simp)),
      splitSlash_joinSlash (r :: rest) (by simp)
        (fun q hq => hns q (List.mem_cons_of_mem s hq))]

theorem joinSlash_ne_nil : ∀ (segs : List (List Char)), segs ≠ [] →
    (∀ s ∈ segs, s ≠ []) → joinSlash segs ≠ []
  | [], h, _ => absurd rfl h
  | [s], _, hne => hne s (by simp)
  | s :: r :: rest, _, hne => by
    show s ++ '/' :: joinSlash (r :: rest) ≠ []
    simp

theorem mem_of_getLast?_eq : ∀ (l : List Char) (c : Char),
    l.getLast? = some c → c ∈ l
  | [], c, h => by simp at h
  | [a], c, h => by
    have ha : some a = some c := h
    rw [← Option.some.inj ha]
    simp
  | a :: b :: t, c, h => by
    rw [List.getLast?_cons_cons] at h
    exact List.mem_cons_of_mem a (mem_of_getLast?_eq (b :: t) c h)

theorem joinSlash_head_ne : ∀ (segs : List (List Char)),
    (∀ s ∈ segs, s ≠ [] ∧ '/' ∉ s) →
    ∀ c, (joinSlash segs).head? = some c → ¬ c = '/'
  | [], _, c, hc => by simp [joinSlash] at hc
  | [s], hinv, c, hc => by
    have hcm : c ∈ s := by
      cases s with
      | nil => exact absurd hc (by simp [joinSlash])
      | cons a t =>
        have ha : some a = some c := hc
        rw [← Option.some.inj ha]
        simp
    exact fun he => (hinv s (by simp)).2 (he ▸ hcm)
  | s :: r :: rest, hinv, c, hc => by
    obtain ⟨hs, hns⟩ := hinv s (by simp)
    cases s with
    | nil => exact absurd rfl hs
    | cons a t =>
      have hc2 : ((a :: t) ++ '/' :: joinSlash (r :: rest)).head? = some c := hc
      rw [List.cons_append, List.head?_cons] at hc2
      have hca : c = a := (Option.some.inj hc2).symm
      subst hca
      exact fun he => hns (he ▸ List.mem_cons_self _ _)

theorem joinSlash_getLast_ne : ∀ (segs : List (List Char)),
    (∀ s ∈ segs, s ≠ [] ∧ '/' ∉ s) →
    ∀ c, (joinSlash segs).getLast? = some c → ¬ c = '/'
  | [], _, c, hc => by simp [joinSlash] at hc
  | [s], hinv, c, hc => by
    have hcm : c ∈ s := mem_of_getLast?_eq s c hc
    exact fun he => (hinv s (by simp)).2 (he ▸ hcm)
  | s :: r :: rest, hinv, c, hc => by
    have hjr : joinSlash (r :: rest) ≠ [] :=
      joinSlash_ne_nil (r :: rest) (by simp)
        (fun q hq => (hinv q (List.mem_cons_of_mem s hq)).1)
    have hc2 : (s ++ '/' :: joinSlash (r :: rest)).getLast? = some c := hc
    rw [List.getLast?_append_of_ne_nil s (by simp)] at hc2
    obtain ⟨d, ds, hds⟩ := List.exists_cons_of_ne_nil hjr
    rw [hds, List.getLast?_cons_cons] at hc2
    refine joinSlash_getLast_ne (r :: rest)
      (fun q hq => hinv q (List.mem_cons_of_mem s hq)) c ?_
    rw [hds]
    exact hc2

theorem dropWhile_of_head_ne (l : List Char)
    (h : ∀ c, l.head? = some c → ¬ c = '/') :
    l.dropWhile (fun c => c = '/') = l := by
  cases l with
  | nil => rfl
  | cons c t =>
    rw [List.dropWhile_cons,
      if_neg (by simp only [decide_eq_true_eq]; exact h c rfl)]

theorem trimSlashes_wrap (j : List Char)
    (hh : ∀ c, j.head? = some c → ¬ c = '/')
    (hl : ∀ c, j.getLast? = some c → ¬ c = '/') :
    trimSlashes ('/' :: j) = j := by
  unfold trimSlashes
  rw [List.dropWhile_cons, if_pos (by decide), dropWhile_of_head_ne j hh,
    dropWhile_of_head_ne j.reverse
      (fun c hc => hl c (by rwa [List.head?_reverse] at hc)),
    List.reverse_reverse]

theorem trimSlashes_wrap_trailing (j : List Char) (hj : j ≠ [])
    (hh : ∀ c, j.head? = some c → ¬ c = '/')
    (hl : ∀ c, j.getLast? = some c → ¬ c = '/') :
    trimSlashes ('/' :: (j ++ ['/'])) = j := by
  unfold trimSlashes
  rw [List.dropWhile_cons, if_pos (by decide)]
  have h1 : (j ++ ['/']).dropWhile (fun c => c = '/') = j ++ ['/'] := by
    apply dropWhile_of_head_ne
    intro c hc
    cases j with
    | nil => exact absurd rfl hj
    | cons a t =>
      rw [List.cons_append, List.head?_cons] at hc
      exact (Option.some.inj hc) ▸ hh a rfl
  rw [h1, List.reverse_append, show (['/'] : List Char).reverse = ['/'] from rfl,
    List.singleton_append, List.dropWhile_cons, if_pos (by decide),
    dropWhile_of_head_ne j.reverse
      (fun c hc => hl c (by rwa [List.head?_reverse] at hc)),
    List.reverse_reverse]

theorem cleanStack_inv (rooted : Bool) :
    ∀ (elems : List (List Char)) (st : List (List Char)),
      (∀ s ∈ st, s ≠ [] ∧ '/' ∉ s) →
      (∀ e ∈ elems, '/' ∉ e) →
      ∀ s ∈ elems.foldl (cleanStep rooted) st, s ≠ [] ∧ '/' ∉ s
  | [], _, hst, _, s, hs => hst s hs
  | e :: elems, st, hst, hel, s, hs => by
    rw [List.foldl_cons] at hs
    refine cleanStack_inv rooted elems (cleanStep rooted st e) ?_
      (fun q hq => hel q (List.mem_cons_of_mem e hq)) s hs
    intro q hq
    cases st with
    | nil =>
      simp only [cleanStep] at hq
      by_cases h1 : e = [] ∨ e = ['.']
      · rw [if_pos h1] at hq
        exact hst q hq
      · rw [if_neg h1] at hq
        by_cases h2 : e = ['.', '.']
        · rw [if_pos h2] at hq
          cases rooted with
          | true => simp at hq
          | false =>
            simp at hq
            subst hq
            exact ⟨by simp, by simp⟩
        · rw [if_neg h2] at hq
          rcases List.mem_cons.mp hq with h | h
          · subst h
            exact ⟨fun he => h1 (Or.inl he), hel q (List.mem_cons_self _ _)⟩
          · exact hst q h
    | cons top rest =>
      simp only [cleanStep] at hq
      by_cases h1 : e = [] ∨ e = ['.']
      · rw [if_pos h1] at hq
        exact hst q hq
      · rw [if_neg h1] at hq
        by_cases h2 : e = ['.', '.']
        · rw [if_pos h2] at hq
          by_cases h3 : top = ['.', '.']
          · rw [if_pos h3] at hq
            rcases List.mem_cons.mp hq with h | h
            · subst h
              rw [h2]
              exact ⟨by simp, by simp⟩
            · exact hst q h
          · rw [if_neg h3] at hq
            exact hst q (List.mem_cons_of_mem top hq)
        · rw [if_neg h2] at hq
          rcases List.mem_cons.mp hq with h | h
          · subst h
            exact ⟨fun he => h1 (Or.inl he), hel q (List.mem_cons_self _ _)⟩
          · exact hst q h

theorem pathClean_form (q : List Char) (hq : q ≠ []) (hh : q.head? = some '/') :
    ∃ segs : List (List Char), (∀ s ∈ segs, s ≠ [] ∧ '/' ∉ s) ∧
      pathClean q = '/' :: joinSlash segs := by
  refine ⟨((splitSlash q).foldl (cleanStep true) []).reverse, ?_, ?_⟩
  · intro s hs
    rw [List.mem_reverse] at hs
    exact cleanStack_inv true (splitSlash q) [] (by simp)
      (splitSlash_no_slash q) s hs
  · have hroot : (q.head? == some '/') = true := by rw [hh]; rfl
    simp only [pathClean, hroot]
    rw [if_neg hq]
    simp

theorem cleanPath_shape (p : List Char) (hp : p ≠ []) :
    ∃ segs : List (List Char), (∀ s ∈ segs, s ≠ [] ∧ '/' ∉ s) ∧
      (cleanPath p = '/' :: joinSlash segs ∨
        (joinSlash segs ≠ [] ∧ cleanPath p = '/' :: (joinSlash segs ++ ['/']))) := by
  have hp1 : (if p.head? == some '/' then p else '/' :: p) ≠ [] := by
    by_cases h : (p.head? == some '/') = true
    · rw [if_pos h]; exact hp
    · rw [if_neg h]; simp
  have hh1 : (if p.head? == some '/' then p else '/' :: p).head? = some '/' := by
    by_cases h : (p.head? == some '/') = true
    · rw [if_pos h]; exact beq_iff_eq.mp h
    · rw [if_neg h]; rfl
  obtain ⟨segs, hinv, hpc⟩ := pathClean_form _ hp1 hh1
  refine ⟨segs, hinv, ?_⟩
  simp only [cleanPath]
  rw [if_neg hp]
  by_cases hcond : ((if p.head? == some '/' then p else '/' :: p).getLast? == some '/'
      && (pathClean (if p.head? == some '/' then p else '/' :: p) != ['/'])) = true
  · rw [if_pos hcond, hpc]
    right
    refine ⟨?_, rfl⟩
    have hne := ((Bool.and_eq_true _ _).mp hcond).2
    rw [hpc] at hne
    intro hj
    rw [hj] at hne
    exact absurd hne (by decide)
  · rw [if_neg hcond, hpc]
    left
    rfl

theorem canonical_segments_nonempty (p : List Char) (hp : p ≠ [])
    (hc : cleanPath p = p) (hroot : p ≠ ['/']) :
    ∀ s ∈ splitSlash (trimSlashes p), s ≠ [] := by
  obtain ⟨segs, hinv, hshape⟩ := cleanPath_shape p hp
  have hinv1 : ∀ s ∈ segs, s ≠ [] := fun s hs => (hinv s hs).1
  have hinv2 : ∀ s ∈ segs, '/' ∉ s := fun s hs => (hinv s hs).2
  rcases hshape with hform | ⟨hjne, hform⟩
  · rw [hc] at hform
    have hsne : segs ≠ [] := by
      intro hseg
      rw [hseg] at hform
      exact hroot (by rw [hform]; rfl)
    rw [hform, trimSlashes_wrap _ (joinSlash_head_ne segs hinv)
        (joinSlash_getLast_ne segs hinv),
      splitSlash_joinSlash segs hsne hinv2]
    exact hinv1
  · rw [hc] at hform
    have hsne : segs ≠ [] := by
      intro hseg
      rw [hseg] at hjne
      exact hjne rfl
    rw [hform, trimSlashes_wrap_trailing _ hjne (joinSlash_head_ne segs hinv)
        (joinSlash_getLast_ne segs hinv),
      splitSlash_joinSlash segs hsne hinv2]
    exact hinv1

theorem specSurvives_root_false (r : Route) (hr : r.segments = [[]])
    (segs : List (List Char)) (h0 : segs.getD 0 [] ≠ []) :
    specSurvives segs r = false := by
  unfold specSurvives Route.len
  rw [hr]
  rw [show ([[]] : List (List Char)).length = 1 from rfl,
    show List.range 1 = [0] from rfl]
  simp only [List.all_cons, List.all_nil, Bool.and_true]
  show (isParamSeg ([[]].getD 0 []) || [[]].getD 0 [] == segs.getD 0 []) = false
  rw [show ([[]] : List (List Char)).getD 0 [] = [] from rfl,
    show isParamSeg [] = false from rfl, Bool.false_or]
  exact beq_eq_false_iff_ne.mpr (fun he => h0 he.symm)

theorem find?_append_cons_of_neg {p : Route → Bool} {r : Route} (hr : p r = false) :
    ∀ l1 l2 : List Route, (l1 ++ r :: l2).find? p = (l1 ++ l2).find? p
  | [], l2 => by
    rw [List.nil_append, List.nil_append]
    exact List.find?_cons_of_neg l2 (by rw [hr]; exact Bool.false_ne_true)
  | a :: l1, l2 => by
    rw [List.cons_append, List.cons_append]
    by_cases ha : p a = true
    · rw [List.find?_cons_of_pos _ ha, List.find?_cons_of_pos _ ha]
    · rw [List.find?_cons_of_neg _ ha, List.find?_cons_of_neg _ ha]
      exact find?_append_cons_of_neg hr l1 l2

theorem any_append_cons_of_neg {p : Route → Bool} {r : Route} (hr : p r = false)
    (l1 l2 : List Route) : (l1 ++ r :: l2).any p = (l1 ++ l2).any p := by
  rw [List.any_append, List.any_append, List.any_cons, hr, Bool.false_or]

theorem filter_append_cons (q : Route → Bool) (l1 l2 : List Route) (r : Route) :
    List.filter q (l1 ++ r :: l2)
      = if q r = true then List.filter q l1 ++ r :: List.filter q l2
        else List.filter q (l1 ++ l2) := by
  rw [List.filter_append, List.filter_cons]
  by_cases hq : q r = true
  · rw [if_pos hq, if_pos hq]
  · rw [if_neg hq, if_neg hq, List.filter_append]

/-- A route that fails the survival predicate never influences the
specification-side match. -/
theorem specMatch_skip (l1 l2 : List Route) (r : Route) (method path : List Char)
    (hns : specSurvives (splitSlash (trimSlashes path)) r = false) :
    specMatch (l1 ++ r :: l2) method path = specMatch (l1 ++ l2) method path := by
  have hpred : (fun rr : Route => specSurvives (splitSlash (trimSlashes path)) rr
      && rr.methodSupported method) r = false := by
    show (specSurvives (splitSlash (trimSlashes path)) r
      && r.methodSupported method) = false
    rw [hns, Bool.false_and]
  simp only [specMatch, specCandidates]
  rw [filter_append_cons]
  by_cases hq : ((r.segments.length == (splitSlash (trimSlashes path)).length &&
      (if (path.getLast? == some '/') = true then r.slashHandler.isSome
        else r.nonSlashHandler.isSome))
    || (decide (r.segments.length < (splitSlash (trimSlashes path)).length)
        && r.slashHandler.isSome)) = true
  · rw [if_pos hq, find?_append_cons_of_neg hpred, any_append_cons_of_neg hns,
      ← List.filter_append]
  · rw [if_neg hq]

/-- The root route (pattern "/", stored as a single empty segment) never
influences matching for a canonical non-root request path. -/
theorem matchRoutes_root_skip (l1 l2 : List Route) (r : Route)
    (method path : List Char) (hr : r.segments = [[]]) (hp : path ≠ [])
    (hcanon : cleanPath path = path) (hroot : path ≠ ['/']) :
    matchRoutes (l1 ++ r :: l2) method path = matchRoutes (l1 ++ l2) method path := by
  have hne := canonical_segments_nonempty path hp hcanon hroot
  have h0 : (splitSlash (trimSlashes path)).getD 0 [] ≠ [] := by
    have hsn := splitSlash_ne_nil (trimSlashes path)
    obtain ⟨a, t, hat⟩ := List.exists_cons_of_ne_nil hsn
    rw [hat]
    show a ≠ []
    exact hne a (by rw [hat]; exact List.mem_cons_self _ _)
  rw [matchRoutes_eq_spec, matchRoutes_eq_spec]
  exact specMatch_skip l1 l2 r method path (specSurvives_root_false r hr _ h0)

/-! ## Parameter binding -/

theorem lookup_argsInsert_self : ∀ (m : List (List Char × List Char)) (k v : List Char),
    (argsInsert m k v).lookup k = some v
  | [], k, v => by simp [argsInsert, List.lookup]
  | (k1, v1) :: rest, k, v => by
    rw [argsInsert]
    by_cases h : k1 = k
    · rw [if_pos h]
      simp [List.lookup]
    · rw [if_neg h]
      have hb : (k == k1) = false := beq_eq_false_iff_ne.mpr (fun he => h he.symm)
      simp only [List.lookup, hb]
      exact lookup_argsInsert_self rest k v

theorem lookup_argsInsert_ne : ∀ (m : List (List Char × List Char)) (k v k2 : List Char),
    k2 ≠ k → (argsInsert m k v).lookup k2 = m.lookup k2
  | [], k, v, k2, h => by
    have hb : (k2 == k) = false := beq_eq_false_iff_ne.mpr h
    simp [argsInsert, List.lookup, hb]
  | (k1, v1) :: rest, k, v, k2, h => by
    rw [argsInsert]
    by_cases h1 : k1 = k
    · rw [if_pos h1]
      have hb : (k2 == k) = false := beq_eq_false_iff_ne.mpr h
      have hb1 : (k2 == k1) = false :=
        beq_eq_false_iff_ne.mpr (fun he => h (he.trans h1))
      simp only [List.lookup, hb, hb1]
    · rw [if_neg h1]
      simp only [List.lookup]
      cases hc : k2 == k1 with
      | true => rfl
      | false => exact lookup_argsInsert_ne rest k v k2 h

theorem lookup_foldl_skip (pathSegs : List (List Char)) (name : List Char) :
    ∀ (ps : List (Nat × List Char)) (acc : List (List Char × List Char)),
      (∀ p ∈ ps, p.2 = name → ¬ p.1 < pathSegs.length) →
      ((ps.foldl (bindStep pathSegs) acc).lookup name) = acc.lookup name
  | [], _, _ => rfl
  | p :: ps, acc, h => by
    rw [List.foldl_cons,
      lookup_foldl_skip pathSegs name ps _
        (fun q hq => h q (List.mem_cons_of_mem p hq))]
    unfold bindStep
    by_cases hp : p.1 < pathSegs.length
    · rw [if_pos hp]
      have hne : p.2 ≠ name := fun he => h p (List.mem_cons_self _ _) he hp
      exact lookup_argsInsert_ne acc p.2 _ name (fun he => hne he.symm)
    · rw [if_neg hp]

theorem lookup_foldl_no_name (pathSegs : List (List Char)) (name : List Char) :
    ∀ (ps : List (Nat × List Char)) (acc : List (List Char × List Char)),
      (∀ p ∈ ps, p.2 ≠ name) →
      ((ps.foldl (bindStep pathSegs) acc).lookup name) = acc.lookup name
  | [], _, _ => rfl
  | p :: ps, acc, h => by
    rw [List.foldl_cons,
      lookup_foldl_no_name pathSegs name ps _
        (fun q hq => h q (List.mem_cons_of_mem p hq))]
    unfold bindStep
    by_cases hp : p.1 < pathSegs.length
    · rw [if_pos hp]
      exact lookup_argsInsert_ne acc p.2 _ name
        (fun he => h p (List.mem_cons_self _ _) he.symm)
    · rw [if_neg hp]

theorem lookup_foldl_unique (pathSegs : List (List Char)) (name : List Char)
    (i : Nat) (hlt : i < pathSegs.length) :
    ∀ (ps : List (Nat × List Char)) (acc : List (List Char × List Char)),
      ps.filter (fun p => p.2 == name) = [(i, name)] →
      ((ps.foldl (bindStep pathSegs) acc).lookup name) = some (pathSegs.getD i [])
  | [], _, h => by simp at h
  | p :: ps, acc, h => by
    rw [List.filter_cons] at h
    by_cases hp : (p.2 == name) = true
    · rw [if_pos hp] at h
      obtain ⟨hp1, hp2⟩ := List.cons_eq_cons.mp h
      subst hp1
      rw [List.foldl_cons]
      have hnone : ∀ q ∈ ps, q.2 ≠ name := by
        intro q hq he
        have hmem : q ∈ ps.filter (fun p => p.2 == name) :=
          List.mem_filter.mpr ⟨hq, by rw [he]; exact beq_self_eq_true name⟩
        rw [hp2] at hmem
        simp at hmem
      rw [lookup_foldl_no_name pathSegs name ps _ hnone]
      show ((if i < pathSegs.length then argsInsert acc name (pathSegs.getD i [])
        else acc).lookup name) = some (pathSegs.getD i [])
      rw [if_pos hlt]
      exact lookup_argsInsert_self acc name _
    · rw [if_neg hp] at h
      rw [List.foldl_cons]
      exact lookup_foldl_unique pathSegs name i hlt ps _ h

/-- In-range unique parameter positions are bound to the request segment
at that position. -/
theorem argsMap_lookup_unique (r : Route) (pathSegs : List (List Char))
    (i : Nat) (name : List Char)
    (hu : r.params.filter (fun p => p.2 == name) = [(i, name)])
    (hlt : i < pathSegs.length) :
    (r.argsMap pathSegs).lookup name = some (pathSegs.getD i []) :=
  lookup_foldl_unique pathSegs name i hlt r.params [] hu

/-- Parameter positions at or beyond the request segment count are not
bound. -/
theorem argsMap_lookup_oob (r : Route) (pathSegs : List (List Char))
    (name : List Char)
    (h : ∀ p ∈ r.params, p.2 = name → ¬ p.1 < pathSegs.length) :
    (r.argsMap pathSegs).lookup name = none :=
  lookup_foldl_skip pathSegs name r.params [] h

/-! ## Outcome and registry lemmas -/

theorem slot_isSome_of_mem {routes : List Route} {slen : Nat} {e : Bool} {r : Route}
    (h : r ∈ possibleRoutes routes slen e) :
    (if decide (r.len < slen) || e then r.slashHandler else r.nonSlashHandler).isSome
      = true := by
  have hp := (List.mem_filter.mp h).2
  unfold possiblePred at hp
  rcases (Bool.or_eq_true _ _).mp hp with h1 | h2
  · obtain ⟨hl, hs⟩ := (Bool.and_eq_true _ _).mp h1
    have hlen : r.len = slen := beq_iff_eq.mp hl
    have hnlt : ¬ r.len < slen := by omega
    rw [decide_eq_false hnlt, Bool.false_or]
    cases e with
    | true =>
      rw [if_pos rfl]
      simp only [Bool.true_and, Bool.not_true, Bool.false_and, Bool.or_false] at hs
      exact hs
    | false =>
      rw [if_neg Bool.false_ne_true]
      simp only [Bool.false_and, Bool.not_false, Bool.true_and, Bool.false_or] at hs
      exact hs
  · obtain ⟨hl, hs⟩ := (Bool.and_eq_true _ _).mp h2
    rw [hl, Bool.true_or, if_pos rfl]
    exact hs

/-- Any handler returned by match is stored in a handler slot of some
registered route. -/
theorem matchRoutes_handler_some {routes : List Route} {method path : List Char}
    {hid : Nat} {args : List (List Char × List Char)} {mm : Bool}
    (hm : matchRoutes routes method path = (some hid, args, mm)) :
    ∃ r ∈ routes, r.slashHandler = some hid ∨ r.nonSlashHandler = some hid := by
  rw [matchRoutes_eq_spec] at hm
  simp only [specMatch] at hm
  rw [← possibleRoutes_eq_specCandidates] at hm
  split at hm
  · rename_i c heq
    have hcm : c ∈ possibleRoutes routes (splitSlash (trimSlashes path)).length
        (path.getLast? == some '/') := List.mem_of_find?_eq_some heq
    have hcr : c ∈ routes := (List.mem_filter.mp hcm).1
    refine ⟨c, hcr, ?_⟩
    have h1 : (if decide (c.len < (splitSlash (trimSlashes path)).length)
        || (path.getLast? == some '/') then c.slashHandler else c.nonSlashHandler)
        = some hid := congrArg Prod.fst hm
    by_cases hsel : (decide (c.len < (splitSlash (trimSlashes path)).length)
        || (path.getLast? == some '/')) = true
    · rw [if_pos hsel] at h1
      exact Or.inl h1
    · rw [if_neg hsel] at h1
      exact Or.inr h1
  · simp at hm

/-- A route that is not a candidate for the request shape never influences
the match. -/
theorem matchRoutes_skip_nonCandidate (l1 l2 : List Route) (r : Route)
    (method path : List Char)
    (hnc : possiblePred (splitSlash (trimSlashes path)).length
      (path.getLast? == some '/') r = false) :
    matchRoutes (l1 ++ r :: l2) method path = matchRoutes (l1 ++ l2) method path := by
  have hpr : possibleRoutes (l1 ++ r :: l2) (splitSlash (trimSlashes path)).length
      (path.getLast? == some '/')
      = possibleRoutes (l1 ++ l2) (splitSlash (trimSlashes path)).length
        (path.getLast? == some '/') := by
    unfold possibleRoutes
    rw [List.filter_append, List.filter_cons, hnc,
      if_neg Bool.false_ne_true, ← List.filter_append]
  simp only [matchRoutes, hpr]

theorem splitHostPath_none_iff (pattern : List Char) :
    splitHostPath pattern = none ↔ '/' ∉ pattern := by
  unfold splitHostPath
  by_cases h : pattern.dropWhile (fun c => c != '/') = []
  · rw [if_pos h]
    rw [List.dropWhile_eq_nil_iff] at h
    constructor
    · intro _ hm
      have h2 := h '/' hm
      simp at h2
    · intro _
      rfl
  · rw [if_neg h]
    constructor
    · intro he
      exact absurd he (by simp)
    · intro hns
      exfalso
      apply h
      rw [List.dropWhile_eq_nil_iff]
      intro c hc
      exact bne_iff_ne.mpr (fun he => hns (he ▸ hc))

theorem lookup_isSome_of_mem_keys :
    ∀ (l : List (List Char × Nat)) (k : List Char),
      k ∈ l.map Prod.fst → (l.lookup k).isSome = true
  | [], k, h => by simp at h
  | (k1, v1) :: rest, k, h => by
    cases hbv : k == k1 with
    | true => simp [List.lookup, hbv]
    | false =>
      have hk2 : k ∈ rest.map Prod.fst := by
        rw [List.map_cons] at h
        rcases List.mem_cons.mp h with h1 | h1
        · rw [h1, beq_self_eq_true] at hbv
          exact Bool.noConfusion hbv
        · exact h1
      simp only [List.lookup, hbv]
      exact lookup_isSome_of_mem_keys rest k hk2

theorem handleOne_mem_key (m : Muxer) (method host path : List Char) (e : Bool)
    (h : Option Nat)
    (hk : (method ++ host ++ path) ∈ m.registered.map Prod.fst) :
    (handleOne m method host path e h).registered = m.registered ∧
      (handleOne m method host path e h).routes = m.routes ∧
      (handleOne m method host path e h).store.length = m.store.length := by
  have hks := lookup_isSome_of_mem_keys m.registered (method ++ host ++ path) hk
  cases hl : m.registered.lookup (method ++ host ++ path) with
  | none =>
    rw [hl] at hks
    simp at hks
  | some id =>
    refine ⟨?_, ?_, ?_⟩
    · simp only [handleOne, hl]
    · simp only [handleOne, hl]
    · simp only [handleOne, hl, List.length_set]

theorem foldl_handleOne_mem (host path : List Char) (e : Bool) (h : Option Nat) :
    ∀ (methods : List (List Char)) (m : Muxer),
      (∀ method ∈ methods, (method ++ host ++ path) ∈ m.registered.map Prod.fst) →
      ((methods.foldl (fun mm method => handleOne mm method host path e h) m).registered
          = m.registered ∧
        (methods.foldl (fun mm method => handleOne mm method host path e h) m).routes
          = m.routes ∧
        (methods.foldl (fun mm method => handleOne mm method host path e h) m).store.length
          = m.store.length)
  | [], _, _ => ⟨rfl, rfl, rfl⟩
  | method :: methods, m, hks => by
    rw [List.foldl_cons]
    have h1 := handleOne_mem_key m method host path e h
      (hks method (List.mem_cons_self _ _))
    have h2 := foldl_handleOne_mem host path e h methods
      (handleOne m method host path e h)
      (fun q hq => by rw [h1.1]; exact hks q (List.mem_cons_of_mem method hq))
    exact ⟨h2.1.trans h1.1, h2.2.1.trans h1.2.1, h2.2.2.trans h1.2.2⟩

/-- Registering under keys that are all already present mutates routes in
place: the key map is unchanged, the arena does not grow, and the sorted
route id list is a permutation of the previous one. -/
theorem handle_existing_keys {m : Muxer} {pattern : List Char}
    {handler : Option Nat} {methods : List (List Char)} {m2 : Muxer}
    {host path : List Char}
    (hne : pattern ≠ [])
    (hsp : splitHostPath pattern = some (host, path))
    (hk : ∀ method ∈ (if methods = [] then [[]] else methods),
      (method ++ host ++ trimSlashes path) ∈ m.registered.map Prod.fst)
    (h : m.Handle pattern handler methods = .ok m2) :
    m2.registered = m.registered ∧ m2.store.length = m.store.length ∧
      m2.routes.Perm m.routes := by
  simp only [Muxer.Handle] at h
  rw [if_neg hne, hsp] at h
  obtain ⟨hreg, hroutes, hstore⟩ := foldl_handleOne_mem host (trimSlashes path)
    (path.getLast? == some '/') handler (if methods = [] then [[]] else methods) m hk
  have hm2 := (Except.ok.inj h).symm
  subst hm2
  refine ⟨hreg, hstore, ?_⟩
  rw [← hroutes]
  exact perm_sortLe _ _

theorem handle_error_characterization (m : Muxer) (pattern : List Char)
    (handler : Option Nat) (methods : List (List Char)) :
    (∃ e, m.Handle pattern handler methods = .error e)
      ↔ (pattern = [] ∨ '/' ∉ pattern) := by
  constructor
  · rintro ⟨e, he⟩
    by_cases h0 : pattern = []
    · exact Or.inl h0
    · simp only [Muxer.Handle] at he
      rw [if_neg h0] at he
      cases hs : splitHostPath pattern with
      | none => exact Or.inr ((splitHostPath_none_iff pattern).mp hs)
      | some hp =>
        obtain ⟨host, path⟩ := hp
        rw [hs] at he
        exact absurd he (by simp)
  · intro hcase
    by_cases h0 : pattern = []
    · exact ⟨_, by simp only [Muxer.Handle]; rw [if_pos h0]⟩
    · rcases hcase with h1 | hns
      · exact absurd h1 h0
      · refine ⟨"path must begin with slash".toList, ?_⟩
        simp only [Muxer.Handle]
        rw [if_neg h0, (splitHostPath_none_iff pattern).mpr hns]

theorem mapM_isSome_iff : ∀ (l : List (List Char)),
    ((l.mapM segPriority).isSome = true) ↔ ∀ s ∈ l, s ≠ []
  | [] => by
    rw [List.mapM_nil]
    simp
  | s :: ss => by
    rw [List.mapM_cons]
    cases s with
    | nil => simp [segPriority]
    | cons c cr =>
      cases hrm : ss.mapM segPriority with
      | none =>
        have hnall : ¬ ∀ s ∈ ss, s ≠ [] := by
          rw [← mapM_isSome_iff ss, hrm]
          simp
        constructor
        · intro h
          simp [segPriority] at h
        · intro hall
          exact absurd (fun s hsm => hall s (List.mem_cons_of_mem _ hsm)) hnall
      | some prest =>
        have hall : ∀ s ∈ ss, s ≠ [] := by
          rw [← mapM_isSome_iff ss, hrm]
          rfl
        constructor
        · intro _ s hsm
          rcases List.mem_cons.mp hsm with h1 | h1
          · rw [h1]
            simp
          · exact hall s h1
        · intro _
          rfl

/-- Totality domain of the source priority function: defined exactly on
routes whose first segment is empty (the root) or whose segments are all
non-empty. -/
theorem priority_isSome_iff (r : Route) :
    r.priority.isSome = true ↔
      (r.segments ≠ [] ∧ (r.segments.head? = some []
        ∨ ∀ s ∈ r.segments, s ≠ [])) := by
  cases hs : r.segments with
  | nil =>
    simp only [Route.priority, hs]
    simp
  | cons s0 rest =>
    simp only [Route.priority, hs]
    by_cases h0 : s0 = []
    · rw [if_pos h0]
      constructor
      · intro _
        exact ⟨by simp, Or.inl (by rw [List.head?_cons, h0])⟩
      · intro _
        rfl
    · rw [if_neg h0]
      rw [mapM_isSome_iff (s0 :: rest)]
      constructor
      · intro hall
        exact ⟨by simp, Or.inr hall⟩
      · rintro ⟨-, h | h⟩
        · rw [List.head?_cons] at h
          exact absurd (Option.some.inj h) h0
        · exact h

/-! ## Claim theorems -/

/-- C1: for every registered route set and every request with a non-empty
path, match computes the specified outcome: the candidate set holds the
routes of exactly the request length with the appropriate slot populated
plus strictly shorter routes with a slash handler, a candidate survives
the backward elimination walk exactly when each of its own segments is a
parameter or equals the request segment at the same index (indices beyond
its own length exempt), and the result is the first surviving candidate in
priority order whose method is accepted, returning its slash handler when
it is shorter than the request or the request ends in a slash and its
non-slash handler otherwise.  All of this is the statement that the
imperative match equals the spec-side `specMatch`. -/
theorem c1_match_refines_spec (routes : List Route) (method path : List Char)
    (hp : path ≠ []) :
    matchRoutes routes method path = specMatch routes method path :=
  matchRoutes_eq_spec routes method path

theorem c1_match_refines_spec_witness :
    ("/users/admin".toList ≠ []) ∧
      matchRoutes mUsers.routeList "GET".toList "/users/admin".toList
        = specMatch mUsers.routeList "GET".toList "/users/admin".toList :=
  ⟨by decide, c1_match_refines_spec mUsers.routeList "GET".toList
    "/users/admin".toList (by decide)⟩

/-- C2: between two routes of equal segment count whose static/parameter
shapes first differ at index `i` with the first route static there, Less
ranks the first route strictly higher, and in any list sorted by
descending priority (as the registry keeps after every registration,
regardless of registration order) the second route never precedes the
first. -/
theorem c2_static_outranks_param (r1 r2 : Route) (i : Nat)
    (hlen : r1.len = r2.len)
    (hne1 : ∀ s ∈ r1.segments, s ≠ []) (hne2 : ∀ s ∈ r2.segments, s ≠ [])
    (hi : i < r1.len)
    (hpre : ∀ j, j < i →
      isParamSeg (r1.segments.getD j []) = isParamSeg (r2.segments.getD j []))
    (hstat : isParamSeg (r1.segments.getD i []) = false)
    (hpar : isParamSeg (r2.segments.getD i []) = true) :
    byPriorityLess r1 r2 = true ∧
      ∀ l : List Route, l.Pairwise (fun a b => byPriorityLess b a = false) →
        ¬ [r2, r1].Sublist l := by
  have h1 := byPriorityLess_of_static_param r1 r2 i hlen hne1 hne2 hi hpre hstat hpar
  refine ⟨h1, ?_⟩
  intro l hl hsub
  have hp2 := hl.sublist hsub
  have h2 := (List.pairwise_cons.mp hp2).1 r1 (by simp)
  rw [h1] at h2
  exact Bool.noConfusion h2

theorem c2_static_outranks_param_witness :
    byPriorityLess (newRoute [] "a/:b/c".toList) (newRoute [] ":d/e/:f".toList)
        = true ∧
      ∀ l : List Route, l.Pairwise (fun a b => byPriorityLess b a = false) →
        ¬ [newRoute [] ":d/e/:f".toList, newRoute [] "a/:b/c".toList].Sublist l :=
  c2_static_outranks_param (newRoute [] "a/:b/c".toList)
    (newRoute [] ":d/e/:f".toList) 0 (by decide) (by decide) (by decide)
    (by decide) (fun j hj => absurd hj (by omega)) (by decide) (by decide)

/-- C3: matching yields exactly one of three outcomes, characterised by
whether a surviving candidate accepts the method and whether any candidate
survives at all; with no custom not-found hook the dispatcher replies 405
on a method mismatch and 404 otherwise; and with only /category/first
registered, GET /category/first/ is a plain not-found. -/
theorem c3_match_trichotomy :
    (∀ (routes : List Route) (method path : List Char) (h : Option Nat)
        (args : List (List Char × List Char)) (mm : Bool), path ≠ [] →
      matchRoutes routes method path = (h, args, mm) →
      (h.isSome = hasAcceptingSurvivor routes method path ∧
        mm = (hasSurvivor routes path && !hasAcceptingSurvivor routes method path)))
    ∧ (∀ (routes : List Route) (method path : List Char)
        (args : List (List Char × List Char)) (mm : Bool),
      (method = "CONNECT".toList ∨ cleanPath path = path) →
      matchRoutes routes method path = (none, args, mm) →
      serveHTTP routes method path = Outcome.errorResp (if mm then 405 else 404))
    ∧ mCategory.matchReq "GET".toList "/category/first/".toList = (none, [], false)
    ∧ serveHTTP mCategory.routeList "GET".toList "/category/first/".toList
        = Outcome.errorResp 404 := by
  refine ⟨?_, ?_, by decide, by decide⟩
  · intro routes method path h args mm hp hm
    rw [matchRoutes_eq_spec] at hm
    simp only [specMatch] at hm
    unfold hasAcceptingSurvivor hasSurvivor
    split at hm
    · rename_i c heq
      have hany : (specCandidates routes (splitSlash (trimSlashes path)).length
          (path.getLast? == some '/')).any
          (fun r => specSurvives (splitSlash (trimSlashes path)) r
            && r.methodSupported method) = true := by
        rw [List.any_eq_true]
        have hpc := List.find?_some heq
        exact ⟨c, List.mem_of_find?_eq_some heq, hpc⟩
      have hA : (if decide (c.len < (splitSlash (trimSlashes path)).length)
          || (path.getLast? == some '/') then c.slashHandler else c.nonSlashHandler)
          = h := congrArg Prod.fst hm
      have hC : false = mm := congrArg (fun t => t.2.2) hm
      have hcm : c ∈ possibleRoutes routes (splitSlash (trimSlashes path)).length
          (path.getLast? == some '/') := by
        rw [possibleRoutes_eq_specCandidates]
        exact List.mem_of_find?_eq_some heq
      constructor
      · rw [← hA, hany, slot_isSome_of_mem hcm]
      · rw [← hC, hany, Bool.not_true, Bool.and_false]
    · rename_i heq
      have hacc : (specCandidates routes (splitSlash (trimSlashes path)).length
          (path.getLast? == some '/')).any
          (fun r => specSurvives (splitSlash (trimSlashes path)) r
            && r.methodSupported method) = false := by
        rw [List.any_eq_false]
        intro x hx
        exact List.find?_eq_none.mp heq x hx
      have hA : (none : Option Nat) = h := congrArg Prod.fst hm
      have hC : (specCandidates routes (splitSlash (trimSlashes path)).length
          (path.getLast? == some '/')).any
          (specSurvives (splitSlash (trimSlashes path))) = mm :=
        congrArg (fun t => t.2.2) hm
      constructor
      · rw [← hA, hacc]
        rfl
      · rw [← hC, hacc, Bool.not_false, Bool.and_true]
  · intro routes method path args mm hcond hm
    have hcf : (method != "CONNECT".toList && cleanPath path != path) = false := by
      rcases hcond with hc | hc
      · rw [hc, bne_self_eq_false, Bool.false_and]
      · rw [hc, bne_self_eq_false, Bool.and_false]
    simp only [serveHTTP]
    rw [hcf, if_neg Bool.false_ne_true, hm]

theorem c3_match_trichotomy_witness :
    serveHTTP ([] : List Route) "GET".toList "/x".toList
      = Outcome.errorResp (if false then 405 else 404) :=
  c3_match_trichotomy.2.1 [] "GET".toList "/x".toList [] false
    (Or.inr (by decide)) (by decide)

/-- C4: registering a key that is already present mutates routes in place
(key map unchanged, arena size unchanged, route list a permutation);
every handler returned by match sits in a slot of some registered route,
so a handler removed from its slot is never invoked again; a route whose
slot for a request shape is empty never influences that match, so
clearing a slot falls through to the next-highest-priority matching
route; concretely, re-registering /a/:x replaces its handler without
duplicating the route, and clearing it makes /a/b fall through to the
/a/ catch-all instead of a not-found. -/
theorem c4_registry_dedup_and_clear :
    (∀ (m : Muxer) (pattern : List Char) (handler : Option Nat)
        (methods : List (List Char)) (m2 : Muxer) (host path : List Char),
      pattern ≠ [] → splitHostPath pattern = some (host, path) →
      (∀ method ∈ (if methods = [] then [[]] else methods),
        (method ++ host ++ trimSlashes path) ∈ m.registered.map Prod.fst) →
      m.Handle pattern handler methods = .ok m2 →
      m2.registered = m.registered ∧ m2.store.length = m.store.length ∧
        m2.routes.Perm m.routes)
    ∧ (∀ (routes : List Route) (method path : List Char) (hid : Nat)
        (args : List (List Char × List Char)) (mm : Bool),
      matchRoutes routes method path = (some hid, args, mm) →
      ∃ r ∈ routes, r.slashHandler = some hid ∨ r.nonSlashHandler = some hid)
    ∧ (∀ (l1 l2 : List Route) (r : Route) (method path : List Char),
      possiblePred (splitSlash (trimSlashes path)).length
        (path.getLast? == some '/') r = false →
      matchRoutes (l1 ++ r :: l2) method path = matchRoutes (l1 ++ l2) method path)
    ∧ mPair.routes.length = 2
    ∧ mPairRereg.routes.length = 2
    ∧ mPairRereg.matchReq "GET".toList "/a/b".toList
        = (some 3, [("x".toList, "b".toList)], false)
    ∧ (∀ r ∈ mPairRereg.routeList, r.slashHandler ≠ some 1
        ∧ r.nonSlashHandler ≠ some 1)
    ∧ mPair.matchReq "GET".toList "/a/b".toList
        = (some 1, [("x".toList, "b".toList)], false)
    ∧ mPairCleared.routes.length = 2
    ∧ mPairCleared.matchReq "GET".toList "/a/b".toList = (some 2, [], false) := by
  refine ⟨?_, ?_, ?_, by decide, by decide, by decide, by decide, by decide,
    by decide, by decide⟩
  · intro m pattern handler methods m2 host path hne hsp hk h
    exact handle_existing_keys hne hsp hk h
  · intro routes method path hid args mm hm
    exact matchRoutes_handler_some hm
  · intro l1 l2 r method path hnc
    exact matchRoutes_skip_nonCandidate l1 l2 r method path hnc

theorem c4_registry_dedup_and_clear_witness :
    matchRoutes ([] ++ newRoute [] "x".toList :: []) "GET".toList "/a".toList
      = matchRoutes ([] ++ []) "GET".toList "/a".toList :=
  c4_registry_dedup_and_clear.2.2.1 [] [] (newRoute [] "x".toList)
    "GET".toList "/a".toList (by decide)

/-- C5: a non-CONNECT request whose path is not in canonical form is
answered with a permanent redirect (301) to the cleaned path for every
route set, so the matcher is never consulted; a CONNECT request bypasses
cleaning entirely and goes straight to matching; and cleaning collapses
duplicate slashes and dot segments while re-appending a trailing slash
when the input had one and the result is not the root. -/
theorem c5_canonicalization_redirect :
    (∀ (routes : List Route) (method path : List Char),
      method ≠ "CONNECT".toList → cleanPath path ≠ path →
      serveHTTP routes method path = Outcome.redirect (cleanPath path) 301)
    ∧ (∀ (routes : List Route) (path : List Char),
      serveHTTP routes "CONNECT".toList path
        = (match matchRoutes routes "CONNECT".toList path with
          | (some h, args, _) => Outcome.handled h args
          | (none, _, mm) => Outcome.errorResp (if mm then 405 else 404)))
    ∧ cleanPath "/a//b".toList = "/a/b".toList
    ∧ cleanPath "/a/./b/".toList = "/a/b/".toList
    ∧ cleanPath "/a/b/../c".toList = "/a/c".toList := by
  refine ⟨?_, ?_, by decide, by decide, by decide⟩
  · intro routes method path hm hc
    have h1 : (method != "CONNECT".toList) = true := bne_iff_ne.mpr hm
    have h2 : (cleanPath path != path) = true := bne_iff_ne.mpr hc
    simp only [serveHTTP]
    rw [h1, h2, Bool.and_self, if_pos rfl]
  · intro routes path
    simp only [serveHTTP]
    rw [bne_self_eq_false, Bool.false_and, if_neg Bool.false_ne_true]

theorem c5_canonicalization_redirect_witness :
    serveHTTP ([] : List Route) "GET".toList "/a//b".toList
      = Outcome.redirect (cleanPath "/a//b".toList) 301 :=
  c5_canonicalization_redirect.1 [] "GET".toList "/a//b".toList
    (by decide) (by decide)

/-- C6: the parameter binding maps each parameter name recorded at a
segment index to the request segment value at that index (for a uniquely
named parameter), binds only indices smaller than the request segment
count, and the bound values are attached to the request context by the
dispatcher; concretely /users/:username matched against GET /users/admin
binds username to admin. -/
theorem c6_parameter_binding :
    (∀ (r : Route) (pathSegs : List (List Char)) (i : Nat) (name : List Char),
      r.params.filter (fun p => p.2 == name) = [(i, name)] →
      i < pathSegs.length →
      (r.argsMap pathSegs).lookup name = some (pathSegs.getD i []))
    ∧ (∀ (r : Route) (pathSegs : List (List Char)) (name : List Char),
      (∀ p ∈ r.params, p.2 = name → ¬ p.1 < pathSegs.length) →
      (r.argsMap pathSegs).lookup name = none)
    ∧ serveHTTP mUsers.routeList "GET".toList "/users/admin".toList
        = Outcome.handled 7 [("username".toList, "admin".toList)] := by
  refine ⟨?_, ?_, by decide⟩
  · intro r pathSegs i name hu hlt
    exact argsMap_lookup_unique r pathSegs i name hu hlt
  · intro r pathSegs name h
    exact argsMap_lookup_oob r pathSegs name h

theorem c6_parameter_binding_witness :
    ((newRoute [] "users/:username".toList).params.filter
        (fun p => p.2 == "username".toList) = [(1, "username".toList)])
    ∧ ((newRoute [] "users/:username".toList).argsMap
        ["users".toList, "admin".toList]).lookup "username".toList
      = some (["users".toList, "admin".toList].getD 1 []) :=
  ⟨by decide, c6_parameter_binding.1 (newRoute [] "users/:username".toList)
    ["users".toList, "admin".toList] 1 "username".toList (by decide) (by decide)⟩

/-- C7 counterexample: identical priority weight sequences are not
restricted to literally identical paths: the distinct registered paths
/a/b and /a/c have the same priority, and both occupy the registry at
once. -/
theorem c7_counterexample_equal_priority_distinct_paths :
    (newRoute [] "a/b".toList).priority = (newRoute [] "a/c".toList).priority
    ∧ (newRoute [] "a/b".toList).segments ≠ (newRoute [] "a/c".toList).segments
    ∧ mPrio.routes.length = 2 := by decide

/-- C7 (amended): after every successful registration the route list is
sorted by descending priority (Less never orders a later route strictly
before an earlier one), and the total priority used by the sorting model
agrees with the source priority wherever the latter is defined; identical
priority sequences can belong to distinct paths, and no stable tie order
among them is guaranteed. -/
theorem c7_sorted_after_handle {m : Muxer} {pattern : List Char}
    {handler : Option Nat} {methods : List (List Char)} {m2 : Muxer}
    (h : m.Handle pattern handler methods = .ok m2) :
    m2.routeList.Pairwise (fun a b => byPriorityLess b a = false)
    ∧ (∀ (r : Route) (pl : List Char), r.priority = some pl → r.priorityT = pl) :=
  ⟨handle_routeList_sorted h, fun _ _ hpl => priorityT_eq_of_priority hpl⟩

theorem c7_sorted_after_handle_witness :
    (handleD NewMuxer "/a/b".toList (some 1) []).routeList.Pairwise
        (fun a b => byPriorityLess b a = false)
    ∧ (∀ (r : Route) (pl : List Char), r.priority = some pl → r.priorityT = pl) :=
  @c7_sorted_after_handle NewMuxer "/a/b".toList (some 1) []
    (handleD NewMuxer "/a/b".toList (some 1) []) (by rfl)

/-- C8 counterexample: a pattern whose only flaw is a malformed parameter
marker (a bare colon segment with an empty name) is accepted without any
error, as is a pattern lacking a leading slash but containing one later
(host form); so Handle does not raise an error for every malformed
pattern in the claimed sense. -/
theorem c8_counterexample_marker_accepted :
    ((NewMuxer.Handle "/:".toList (some 1) []).toOption.isSome = true)
    ∧ ((newRoute [] ":".toList).params = [(0, [])])
    ∧ ((NewMuxer.Handle "ab/c".toList (some 1) []).toOption.isSome = true) := by
  decide

/-- C8 (amended): Handle raises a registration error exactly when the
pattern is empty or contains no slash at all; a malformed parameter
marker is accepted silently and a missing leading slash is treated as a
host prefix. -/
theorem c8_error_iff (m : Muxer) (pattern : List Char) (handler : Option Nat)
    (methods : List (List Char)) :
    (∃ e, m.Handle pattern handler methods = .error e)
      ↔ (pattern = [] ∨ '/' ∉ pattern) :=
  handle_error_characterization m pattern handler methods

theorem c8_error_iff_witness :
    ∃ e, NewMuxer.Handle [] (some 1) [] = .error e :=
  (c8_error_iff NewMuxer [] (some 1) []).mpr (Or.inl rfl)

/-- C9: the route registered under the root pattern is stored with a
single empty segment, and for every canonical request path other than the
root that route never influences matching: the empty segment is static
and differs from every canonical request segment, so the root is not a
prefix catch-all. -/
theorem c9_root_not_catch_all :
    ((newRoute [] (trimSlashes "/".toList)).segments = [[]])
    ∧ (∀ (l1 l2 : List Route) (r : Route) (method path : List Char),
      r.segments = [[]] → path ≠ [] → cleanPath path = path → path ≠ ['/'] →
      matchRoutes (l1 ++ r :: l2) method path
        = matchRoutes (l1 ++ l2) method path) :=
  ⟨by decide, fun l1 l2 r method path hr hp hc hro =>
    matchRoutes_root_skip l1 l2 r method path hr hp hc hro⟩

theorem c9_root_not_catch_all_witness :
    matchRoutes ([] ++ newRoute [] [] :: []) "GET".toList "/a".toList
      = matchRoutes ([] ++ []) "GET".toList "/a".toList :=
  c9_root_not_catch_all.2 [] [] (newRoute [] []) "GET".toList "/a".toList
    (by decide) (by decide) (by decide) (by decide)

/-- C10: the pattern /a//b passes registration validation (no
InvalidPattern error is raised), yet the route it creates has an
undefined priority: evaluating priority() on it indexes the first byte of
the empty middle segment, which panics; and priority() is total exactly
on routes whose first segment is empty (the root) or whose segments are
all non-empty. -/
theorem c10_empty_segment_priority :
    ((NewMuxer.Handle "/a//b".toList (some 1) []).toOption.isSome = true)
    ∧ ((newRoute [] (trimSlashes "/a//b".toList)).priority = none)
    ∧ (∀ r : Route, r.priority.isSome = true ↔
        (r.segments ≠ [] ∧ (r.segments.head? = some []
          ∨ ∀ s ∈ r.segments, s ≠ []))) :=
  ⟨by decide, by decide, priority_isSome_iff⟩

theorem c10_empty_segment_priority_witness :
    (newRoute [] "a".toList).priority.isSome = true :=
  (c10_empty_segment_priority.2.2 (newRoute [] "a".toList)).mpr
    ⟨by decide, Or.inr (by decide)⟩

end MuxModel
